import Mathlib

/-!
Shallow embedding of the analysis core of the Persistence-Of-Vision telemetry
tools, together with proofs of the behavioural claims about it.

Sources embedded here:
* `tools/pov_tools/serial_comm.py` — `enrich_accel_csv` (stream synchronizer and
  unit converter), conversion constants and saturation threshold;
* `tools/pov_tools/analysis.py` — legacy `load_and_enrich` saturation flag;
* `tools/pov_tools/analysis/loader.py` — `load_and_enrich` error behaviour;
* `tools/pov_tools/analysis/analyzers/phase.py` — per-axis FFT/fit analysis,
  `_compute_sinusoid_r2`, `_compute_phase_summary`, `_generate_1x_filtered_plot`.

Machine integers are modelled as `ℕ`/`ℤ` (no wraparound is exercised by the
claims), exact float arithmetic as `ℚ` where the code only does field
arithmetic, and `ℝ` where trigonometry/FFT is involved.  Python's float `%` is
modelled exactly (`a - b * ⌊a / b⌋`) and Python's banker's rounding `round(x, d)`
as `roundHalfEven`.
-/

namespace POV

/-- Python's floating `%` on exact rationals: `a % b = a - b * floor (a / b)`.
For `b > 0` the result lies in `[0, b)`. -/
def qfmod (a b : ℚ) : ℚ := a - b * ⌊a / b⌋

lemma qfmod_nonneg (a : ℚ) {b : ℚ} (hb : 0 < b) : 0 ≤ qfmod a b := by
  unfold qfmod
  have h : ((⌊a / b⌋ : ℚ)) ≤ a / b := Int.floor_le (a / b)
  have h2 : b * (⌊a / b⌋ : ℚ) ≤ b * (a / b) := mul_le_mul_of_nonneg_left h hb.le
  have h3 : b * (a / b) = a := by field_simp
  linarith

lemma qfmod_lt (a : ℚ) {b : ℚ} (hb : 0 < b) : qfmod a b < b := by
  unfold qfmod
  have h : a / b < (⌊a / b⌋ : ℚ) + 1 := Int.lt_floor_add_one (a / b)
  have h2 : b * (a / b) < b * ((⌊a / b⌋ : ℚ) + 1) := mul_lt_mul_of_pos_left h hb
  have h3 : b * (a / b) = a := by field_simp
  nlinarith

lemma qfmod_eq_self {a b : ℚ} (hb : 0 < b) (h0 : 0 ≤ a) (h1 : a < b) : qfmod a b = a := by
  unfold qfmod
  have hfl : ⌊a / b⌋ = 0 := by
    rw [Int.floor_eq_zero_iff]
    exact ⟨div_nonneg h0 hb.le, (div_lt_one hb).mpr h1⟩
  rw [hfl]
  ring

/-! ### Data model: raw tables (serial_comm.py CSV rows) -/

/-- One row of `MSG_HALL_EVENT.csv`: a once-per-revolution rotation event. -/
structure HallEvent where
  timestamp_us : ℕ
  rotation_num : ℕ
  period_us : ℕ
deriving DecidableEq

/-- One row of the raw `MSG_ACCEL_SAMPLES.csv`. -/
structure AccelRaw where
  timestamp_us : ℕ
  sequence_num : ℕ
  x : ℤ
  y : ℤ
  z : ℤ
  gx : ℤ
  gy : ℤ
  gz : ℤ
deriving DecidableEq

/-- serial_comm.py: `ACCEL_RANGE_G = 16.0`. -/
def ACCEL_RANGE_G : ℚ := 16

/-- serial_comm.py: `GYRO_RANGE_DPS = 2000.0`. -/
def GYRO_RANGE_DPS : ℚ := 2000

/-- serial_comm.py: `ACCEL_G_PER_LSB = ACCEL_RANGE_G / 32768.0`. -/
def ACCEL_G_PER_LSB : ℚ := ACCEL_RANGE_G / 32768

/-- serial_comm.py: `GYRO_DPS_PER_LSB = GYRO_RANGE_DPS / 32768.0`. -/
def GYRO_DPS_PER_LSB : ℚ := GYRO_RANGE_DPS / 32768

/-- serial_comm.py: `SATURATION_THRESHOLD = 32700`. -/
def SATURATION_THRESHOLD : ℤ := 32700

/-- One row of the enriched accelerometer table written by `enrich_accel_csv`.
The source also writes a `gyro_wobble_dps` column (`sqrt(gx_dps**2 + gy_dps**2)`,
an irrational real); no claim refers to it and it is not modelled here. -/
structure Enriched where
  timestamp_us : ℕ
  sequence_num : ℕ
  rotation_num : ℕ
  micros_since_hall : ℕ
  angle_deg : ℚ
  rpm : ℚ
  x_g : ℚ
  y_g : ℚ
  z_g : ℚ
  gx_dps : ℚ
  gy_dps : ℚ
  gz_dps : ℚ
  is_x_saturated : Bool
  is_gz_saturated : Bool
deriving DecidableEq

/-- Placeholder hall event used only as the (never reached) `getD` default. -/
def defaultHallEvent : HallEvent := ⟨0, 0, 0⟩

/-- For a hall table sorted by timestamp, `np.searchsorted(hall_ts, t, side='right')`
is the number of hall events with timestamp `≤ t`. -/
def countLE (hall : List HallEvent) (t : ℕ) : ℕ :=
  hall.countP (fun e => decide (e.timestamp_us ≤ t))

/-- serial_comm.py `enrich_accel_csv`, per-sample body: `searchsorted(...) - 1`
clipped into `[0, len(hall) - 1]`, assignment of `rotation_num`, `micros_since_hall`,
`angle_deg` (zeroed for samples before the first hall event), `rpm`, the physical
unit conversions and the saturation flags.  `min (k - 1) (len - 1)` computes the
clip: for `k = 0` natural subtraction gives index `0`, exactly `np.clip(-1, 0, ...)`. -/
def enrichSample (hall : List HallEvent) (a : AccelRaw) : Enriched :=
  let k := countLE hall a.timestamp_us
  let i := min (k - 1) (hall.length - 1)
  let e := hall.getD i defaultHallEvent
  { timestamp_us := a.timestamp_us
    sequence_num := a.sequence_num
    rotation_num := if k = 0 then 0 else e.rotation_num
    micros_since_hall := if k = 0 then 0 else a.timestamp_us - e.timestamp_us
    angle_deg :=
      if k = 0 then 0
      else qfmod ((((a.timestamp_us - e.timestamp_us : ℕ) : ℚ) / (e.period_us : ℚ)) * 360) 360
    rpm := 60000000 / (e.period_us : ℚ)
    x_g := a.x * ACCEL_G_PER_LSB
    y_g := a.y * ACCEL_G_PER_LSB
    z_g := a.z * ACCEL_G_PER_LSB
    gx_dps := a.gx * GYRO_DPS_PER_LSB
    gy_dps := a.gy * GYRO_DPS_PER_LSB
    gz_dps := a.gz * GYRO_DPS_PER_LSB
    is_x_saturated := decide (SATURATION_THRESHOLD ≤ |a.x|)
    is_gz_saturated := decide (SATURATION_THRESHOLD ≤ |a.gz|) }

/-- Timestamp order on hall events, the key of `hall.sort_values('timestamp_us')`. -/
def hallTsLE (a b : HallEvent) : Prop := a.timestamp_us ≤ b.timestamp_us

instance : DecidableRel hallTsLE := fun a b => Nat.decLe a.timestamp_us b.timestamp_us

instance : IsTotal HallEvent hallTsLE := ⟨fun a b => Nat.le_total a.timestamp_us b.timestamp_us⟩

instance : IsTrans HallEvent hallTsLE := ⟨fun _ _ _ hab hbc => Nat.le_trans hab hbc⟩

/-- serial_comm.py: `hall = hall.sort_values('timestamp_us')` (a stable sort,
modelled by insertion sort, which is likewise stable). -/
def sortHall (hs : List HallEvent) : List HallEvent :=
  hs.insertionSort hallTsLE

/-- serial_comm.py `enrich_accel_csv`: `none` models the `return False` paths
(a missing file or an empty table); otherwise the hall table is sorted by
timestamp and every accelerometer row is enriched. -/
def enrich_accel_csv (accel : Option (List AccelRaw)) (hall : Option (List HallEvent)) :
    Option (List Enriched) :=
  match accel, hall with
  | some as, some hs =>
      if as.isEmpty || hs.isEmpty then none
      else some (as.map (enrichSample (sortHall hs)))
  | _, _ => none

/-! ### Sortedness and searchsorted lemmas -/

/-- The hall list produced by `sortHall` is sorted by timestamp. -/
lemma sortHall_sorted (hs : List HallEvent) :
    (sortHall hs).Pairwise (fun a b => a.timestamp_us ≤ b.timestamp_us) :=
  (List.sorted_insertionSort hallTsLE hs).imp (fun h => h)

lemma countLE_le_length (hall : List HallEvent) (t : ℕ) : countLE hall t ≤ hall.length :=
  List.countP_le_length _

/-- In a timestamp-sorted hall list, if some event has timestamp `≤ t` then the
event at index `countLE - 1` (the one `searchsorted` assigns) has timestamp `≤ t`. -/
lemma countLE_getD_le (hall : List HallEvent) (t : ℕ)
    (hsort : hall.Pairwise (fun a b => a.timestamp_us ≤ b.timestamp_us))
    (hk : 0 < countLE hall t) :
    (hall.getD (countLE hall t - 1) defaultHallEvent).timestamp_us ≤ t := by
  induction hall with
  | nil => simp [countLE] at hk
  | cons e rest ih =>
      rcases List.pairwise_cons.mp hsort with ⟨hhead, htail⟩
      by_cases he : e.timestamp_us ≤ t
      · have hcount : countLE (e :: rest) t = countLE rest t + 1 := by
          simp [countLE, List.countP_cons, he]
        rcases Nat.eq_zero_or_pos (countLE rest t) with h0 | hpos
        · simp [hcount, h0, he]
        · have hrec := ih htail hpos
          have harith : countLE (e :: rest) t - 1 = (countLE rest t - 1) + 1 := by
            rw [hcount]
            omega
          rw [harith, List.getD_cons_succ]
          exact hrec
      · exfalso
        have hrest : countLE rest t = 0 := by
          refine List.countP_eq_zero.mpr ?_
          intro b hb
          simp only [decide_eq_true_eq]
          intro hbt
          exact he (le_trans (hhead b hb) hbt)
        have hzero : countLE (e :: rest) t = 0 := by
          have h1 : countLE (e :: rest) t = countLE rest t := by
            simp [countLE, List.countP_cons, he]
          rw [h1, hrest]
        omega

/-- In a timestamp-sorted hall list, the event at index `countLE` (the first one
`searchsorted` does not assign), when it exists, has timestamp strictly after `t`. -/
lemma countLE_getD_gt (hall : List HallEvent) (t : ℕ)
    (hsort : hall.Pairwise (fun a b => a.timestamp_us ≤ b.timestamp_us))
    (hlt : countLE hall t < hall.length) :
    t < (hall.getD (countLE hall t) defaultHallEvent).timestamp_us := by
  induction hall with
  | nil => simp at hlt
  | cons e rest ih =>
      rcases List.pairwise_cons.mp hsort with ⟨hhead, htail⟩
      by_cases he : e.timestamp_us ≤ t
      · have hcount : countLE (e :: rest) t = countLE rest t + 1 := by
          simp [countLE, List.countP_cons, he]
        have hlt2 : countLE rest t < rest.length := by
          simp only [hcount, List.length_cons] at hlt
          omega
        have := ih htail hlt2
        simpa [hcount] using this
      · have hrest : countLE rest t = 0 := by
          refine List.countP_eq_zero.mpr ?_
          intro b hb
          simp only [decide_eq_true_eq]
          intro hbt
          exact he (le_trans (hhead b hb) hbt)
        have hcount : countLE (e :: rest) t = 0 := by
          have h1 : countLE (e :: rest) t = countLE rest t := by
            simp [countLE, List.countP_cons, he]
          rw [h1, hrest]
        rw [hcount, List.getD_cons_zero]
        omega

/-! ### Loader (analysis/loader.py, analysis.py) -/

/-- Row of the analysis context after the hall-period left merge and the
`phase = angle_deg / 360` column (loader.py `load_and_enrich`). -/
structure LoadedRow where
  row : Enriched
  period_us : Option ℕ
  phase : ℚ
deriving DecidableEq

/-- loader.py: `accel.merge(hall[["rotation_num", "period_us"]], on="rotation_num",
how="left")` plus the phase column.  The left merge is modelled as a first-match
lookup (rotation numbers are unique in the data model). -/
def mergeHallPeriod (hall : List HallEvent) (r : Enriched) : LoadedRow :=
  ⟨r, (hall.find? (fun e => decide (e.rotation_num = r.rotation_num))).map (·.period_us),
   r.angle_deg / 360⟩

/-- The in-memory analysis context built by loader.py `load_and_enrich`. -/
structure AnalysisContext where
  accel : List Enriched
  hall : List HallEvent
  enriched : List LoadedRow
deriving DecidableEq

/-- loader.py `load_and_enrich`: raises `FileNotFoundError` (modelled as `.error`
with the message's fixed prefix) when a required CSV file is absent (`none`).
A present-but-empty table is loaded and merged without any emptiness check. -/
def load_and_enrich (accel : Option (List Enriched)) (hall : Option (List HallEvent)) :
    Except String AnalysisContext :=
  match accel with
  | none => Except.error "Accelerometer data not found"
  | some as =>
    match hall with
    | none => Except.error "Hall event data not found"
    | some hs => Except.ok ⟨as, hs, as.map (mergeHallPeriod hs)⟩

/-- analysis.py (legacy ADXL345 path): `enriched["is_y_saturated"] = enriched["y"] >= 4094`.
Note the source compares the signed raw count directly, without absolute value. -/
def is_y_saturated_legacy (y : ℤ) : Bool := decide (4094 ≤ y)

/-! ### Concrete example data shared by witnesses and counterexamples -/

/-- Two hall events at timestamps 100 and 200 (already timestamp-sorted). -/
def hallPair : List HallEvent := [⟨100, 0, 50⟩, ⟨200, 1, 100⟩]

/-- An accelerometer sample that precedes the first hall event. -/
def earlySample : AccelRaw := ⟨50, 0, 0, 0, 0, 0, 0, 0⟩

/-- An accelerometer sample between the two hall events of `hallPair`. -/
def midSample : AccelRaw := ⟨125, 1, 0, 0, 0, 0, 0, 0⟩

/-- Placeholder enriched row used only as a `getD` default in closed statements. -/
def defaultEnriched : Enriched := enrichSample [] earlySample

/-! ### Real-valued embedding of the phase analyzer (analyzers/phase.py)

The analyzer works on floats with numpy trigonometry; it is modelled over `ℝ`
with exact real arithmetic.  `scipy.optimize.curve_fit` is a numerical oracle:
its outcome is a parameter of type `Option FitParams` (`none` models the
`except` path, i.e. a fit that raised). -/

open scoped Classical

/-- Python float `%` over the reals: `a % b = a - b * floor (a / b)`. -/
noncomputable def fmodR (a b : ℝ) : ℝ := a - b * ⌊a / b⌋

/-- numpy `np.radians`. -/
noncomputable def radiansR (d : ℝ) : ℝ := d * (Real.pi / 180)

/-- numpy `np.degrees`. -/
noncomputable def degreesR (x : ℝ) : ℝ := x * (180 / Real.pi)

/-- numpy `np.arctan2 y x`, the angle of the point `(x, y)` in `(-pi, pi]`. -/
noncomputable def atan2 (y x : ℝ) : ℝ :=
  if 0 < x then Real.arctan (y / x)
  else if x < 0 then
    (if 0 ≤ y then Real.arctan (y / x) + Real.pi else Real.arctan (y / x) - Real.pi)
  else if 0 < y then Real.pi / 2
  else if y < 0 then -(Real.pi / 2)
  else 0

/-- Python `round()` to an integer: round half to even (banker's rounding). -/
noncomputable def roundHalfEven (x : ℝ) : ℤ :=
  if Int.fract x < 1 / 2 then ⌊x⌋
  else if 1 / 2 < Int.fract x then ⌊x⌋ + 1
  else if Even ⌊x⌋ then ⌊x⌋ else ⌊x⌋ + 1

/-- Python `round(x, d)` for `d` decimal digits. -/
noncomputable def pyRound (d : ℕ) (x : ℝ) : ℝ :=
  (roundHalfEven (x * 10 ^ d) : ℝ) / 10 ^ d

/-- numpy `np.fft.rfft(bins)[k]`: bin `k` of the forward real DFT of a
length-`n` array, `sum_j bins[j] * exp(-2*pi*i*j*k/n)`. -/
noncomputable def rfftBin (n : ℕ) (bins : ℕ → ℝ) (k : ℕ) : ℂ :=
  ∑ j ∈ Finset.range n, (bins j : ℂ)
      * Complex.exp (-(2 * (Real.pi : ℂ) * Complex.I) * j * k / n)

/-- phase.py: `angles = np.linspace(0, 2 * np.pi, n_bins, endpoint=False)`. -/
noncomputable def anglesLinspace (n j : ℕ) : ℝ := 2 * Real.pi * j / n

/-- Parameters `(A, phi, offset)` returned by `scipy.optimize.curve_fit`. -/
structure FitParams where
  A : ℝ
  phi : ℝ
  offset : ℝ

/-- phase.py `_compute_sinusoid_r2`: the model `A * np.sin(theta + phi) + offset`. -/
noncomputable def sinusoidModel (p : FitParams) (theta : ℝ) : ℝ :=
  p.A * Real.sin (theta + p.phi) + p.offset

/-- numpy `np.mean` over the first `n` values. -/
noncomputable def npMean (n : ℕ) (v : ℕ → ℝ) : ℝ := (∑ j ∈ Finset.range n, v j) / n

/-- phase.py `_compute_sinusoid_r2`: `1 - ss_res / ss_tot` for the fitted
sinusoid when `ss_tot > 0`, `0` when `ss_tot` is not positive, and `0.0` on the
`except` path (a fit that failed to converge, `fit = none`). -/
noncomputable def computeSinusoidR2 (n : ℕ) (values : ℕ → ℝ) (fit : Option FitParams) : ℝ :=
  match fit with
  | none => 0
  | some p =>
      let ssRes := ∑ j ∈ Finset.range n, (values j - sinusoidModel p (anglesLinspace n j)) ^ 2
      let ssTot := ∑ j ∈ Finset.range n, (values j - npMean n values) ^ 2
      if 0 < ssTot then 1 - ssRes / ssTot else 0

/-- The per-axis record written into `metrics["phase_by_position"][...]["axes"]`:
`round(mag_1x, 4)`, `round(phase_1x, 1)`, `round(r_squared, 3)`. -/
structure AxisMetrics where
  magnitude_g : ℝ
  phase_deg : ℝ
  r_squared : ℝ

/-- An element of `all_phase_estimates` (phase.py lines 116-124); the payload
fields `position`, `axis` and `rpm` never enter any computation and are omitted. -/
structure PhaseEstimate where
  phase_deg : ℝ
  r_squared : ℝ

/-- phase.py `_phase_analysis_by_position`, per-(position, axis) body (lines
101-124): bin-1 FFT magnitude and angle, the sinusoid-fit coefficient of
determination, the rounded metrics record, and the estimate appended to
`all_phase_estimates` exactly when `r_squared > 0.15`. -/
noncomputable def analyzeAxis (n : ℕ) (bins : ℕ → ℝ) (fit : Option FitParams) :
    AxisMetrics × Option PhaseEstimate :=
  (⟨pyRound 4 (Complex.abs (rfftBin n bins 1)),
    pyRound 1 (degreesR (Complex.arg (rfftBin n bins 1))),
    pyRound 3 (computeSinusoidR2 n bins fit)⟩,
   if 0.15 < computeSinusoidR2 n bins fit then
     some ⟨degreesR (Complex.arg (rfftBin n bins 1)), computeSinusoidR2 n bins fit⟩
   else none)

/-- The dict returned by phase.py `_compute_phase_summary`; a `none` field
models an absent dict key. -/
structure PhaseSummary where
  n_estimates : Option ℕ
  mean_phase_deg : Option ℝ
  circular_std_deg : Option ℝ
  counterweight_deg : Option ℝ
  estimates : List PhaseEstimate

/-- phase.py `_compute_phase_summary`: `[e for e in all_estimates if e["r_squared"] > 0.15]`. -/
noncomputable def goodEstimates (es : List PhaseEstimate) : List PhaseEstimate :=
  es.filter fun e => decide ((0.15 : ℝ) < e.r_squared)

/-- The weighted circular mean of phase.py `_compute_phase_summary` (lines
486-491): `degrees(arctan2(sum w*sin(rad p), sum w*cos(rad p))) % 360`, the
weight of an estimate being its `r_squared`. -/
noncomputable def weightedCircularMean (es : List PhaseEstimate) : ℝ :=
  let sinSum := (es.map fun e => e.r_squared * Real.sin (radiansR e.phase_deg)).sum
  let cosSum := (es.map fun e => e.r_squared * Real.cos (radiansR e.phase_deg)).sum
  fmodR (degreesR (atan2 sinSum cosSum)) 360

/-- phase.py `_compute_phase_summary`: `{}` for an empty input list,
`{"n_estimates": 0}` when no estimate beats the 0.15 floor, otherwise the
weighted circular mean, circular standard deviation and counterweight angle,
each stored rounded to one decimal. -/
noncomputable def computePhaseSummary (es : List PhaseEstimate) : PhaseSummary :=
  if es.isEmpty then ⟨none, none, none, none, []⟩
  else
    let good := goodEstimates es
    if good.isEmpty then ⟨some 0, none, none, none, []⟩
    else
      let sinSum := (good.map fun e => e.r_squared * Real.sin (radiansR e.phase_deg)).sum
      let cosSum := (good.map fun e => e.r_squared * Real.cos (radiansR e.phase_deg)).sum
      let meanPhase := fmodR (degreesR (atan2 sinSum cosSum)) 360
      let totalWeight := (good.map fun e => e.r_squared).sum
      let rBar := if 0 < totalWeight then Real.sqrt (sinSum ^ 2 + cosSum ^ 2) / totalWeight else 0
      let circStd := if 0 < rBar then degreesR (Real.sqrt (-2 * Real.log rBar)) else 180
      let counterweight := fmodR (meanPhase + 180) 360
      ⟨some good.length, some (pyRound 1 meanPhase), some (pyRound 1 circStd),
       some (pyRound 1 counterweight), good⟩

/-- numpy `np.fft.irfft`'s Hermitian extension of a half spectrum of length
`n / 2 + 1` to a full spectrum of length `n`: `conj (a (n - m))` above the
Nyquist bin. -/
noncomputable def hermitianExt (a : ℕ → ℂ) (n m : ℕ) : ℂ :=
  if m ≤ n / 2 then a m else (starRingEnd ℂ) (a (n - m))

/-- numpy `np.fft.irfft(a, n)[j]`: the inverse DFT of the Hermitian extension;
numpy returns the real signal, modelled as the real part. -/
noncomputable def irfftSig (a : ℕ → ℂ) (n j : ℕ) : ℝ :=
  ((∑ m ∈ Finset.range n, hermitianExt a n m
      * Complex.exp (2 * (Real.pi : ℂ) * Complex.I * m * j / n)) / n).re

/-- phase.py `_generate_1x_filtered_plot` lines 381-384: zero every rfft bin
except bin `k`. -/
noncomputable def maskToBin (a : ℕ → ℂ) (k : ℕ) : ℕ → ℂ :=
  fun m => if m = k then a m else 0

/-- numpy `np.argmax` over the first `n` values: the first index attaining the
maximum. -/
noncomputable def argmaxIdx (n : ℕ) (f : ℕ → ℝ) : ℕ :=
  (List.range n).foldl (fun best j => if f best < f j then j else best) 0

/-- The `metrics["balancing"]` dict written by `_generate_1x_filtered_plot`. -/
structure BalancingMetrics where
  peak_imbalance_deg : ℝ
  counterweight_position_deg : ℝ

/-- phase.py `_generate_1x_filtered_plot` (lines 380-398): isolate bin 1 of each
spectrum, invert, combine the two axes by a Euclidean norm per bin, take the
first peak bin as the heavy spot and report `peak + 180 mod 360` as the
counterweight position, both rounded to zero decimals in the metrics. -/
noncomputable def balancing1x (n : ℕ) (xfft zfft : ℕ → ℂ) : BalancingMetrics :=
  let combined := fun j =>
    Real.sqrt ((irfftSig (maskToBin xfft 1) n j) ^ 2 + (irfftSig (maskToBin zfft 1) n j) ^ 2)
  let peakIdx := argmaxIdx n combined
  let peakAngle := (peakIdx : ℝ) * (360 / n)
  let counterweightAngle := fmodR (peakAngle + 180) 360
  ⟨pyRound 0 peakAngle, pyRound 0 counterweightAngle⟩

/-! ### C1 — stream synchronizer assignment -/

/-- C1 counterexample: a sample whose timestamp (50) precedes every rotation
event is still assigned `rotation_num = 0`, the rotation number of event 0,
although no rotation event has a timestamp not after the sample (event 0 is at
timestamp 100).  Its timestamp therefore does not lie in
`[event[0].timestamp, event[1].timestamp) = [100, 200)`, refuting the claim's
universal quantification over all accelerometer samples. -/
theorem C1_counterexample :
    (enrich_accel_csv (some [earlySample]) (some hallPair)).isSome = true ∧
    (((enrich_accel_csv (some [earlySample]) (some hallPair)).getD []).getD 0
        defaultEnriched).rotation_num = 0 ∧
    (hallPair.getD 0 defaultHallEvent).rotation_num = 0 ∧
    (hallPair.getD 0 defaultHallEvent).timestamp_us = 100 ∧
    earlySample.timestamp_us = 50 ∧
    countLE hallPair earlySample.timestamp_us = 0 ∧
    ¬(100 ≤ 50) := by
  decide

/-- C1 (amended): for every enriched sample the angle lies in `[0, 360)`, and for
every sample with at least one rotation event at or before its timestamp
(`0 < countLE`), the synchronizer assigns the latest such event: that event's
timestamp is `≤` the sample's, the sample carries its `rotation_num`, and when a
next event exists the sample's timestamp is strictly before it.  Samples
preceding the first event are excluded from the interval property (they are the
counterexample's degenerate case).  `hper` records that hall periods are
positive durations, under which the exact ℚ model agrees with the float code. -/
theorem C1_sync_assignment (accel : List AccelRaw) (hall : List HallEvent)
    (out : List Enriched) (a : AccelRaw)
    (hout : enrich_accel_csv (some accel) (some hall) = some out)
    (ha : a ∈ accel)
    (_hper : ∀ e ∈ hall, 0 < e.period_us) :
    (0 ≤ (enrichSample (sortHall hall) a).angle_deg ∧
        (enrichSample (sortHall hall) a).angle_deg < 360) ∧
    enrichSample (sortHall hall) a ∈ out ∧
    (0 < countLE (sortHall hall) a.timestamp_us →
      ((sortHall hall).getD (countLE (sortHall hall) a.timestamp_us - 1)
          defaultHallEvent).timestamp_us ≤ a.timestamp_us ∧
      (enrichSample (sortHall hall) a).rotation_num
        = ((sortHall hall).getD (countLE (sortHall hall) a.timestamp_us - 1)
            defaultHallEvent).rotation_num ∧
      (countLE (sortHall hall) a.timestamp_us < (sortHall hall).length →
        a.timestamp_us
          < ((sortHall hall).getD (countLE (sortHall hall) a.timestamp_us)
              defaultHallEvent).timestamp_us)) := by
  have hsort := sortHall_sorted hall
  set hs := sortHall hall with hhs
  set k := countLE hs a.timestamp_us with hk
  have hklen : k ≤ hs.length := countLE_le_length hs a.timestamp_us
  refine ⟨?_, ?_, ?_⟩
  · by_cases h0 : k = 0
    · simp [enrichSample, ← hk, h0]
    · have h360 : (0 : ℚ) < 360 := by norm_num
      constructor
      · simpa [enrichSample, ← hk, h0] using qfmod_nonneg _ h360
      · simpa [enrichSample, ← hk, h0] using qfmod_lt _ h360
  · have hcond : (accel.isEmpty || hall.isEmpty) = false := by
      by_contra hcontra
      have : (accel.isEmpty || hall.isEmpty) = true := by
        revert hcontra
        cases accel.isEmpty || hall.isEmpty <;> simp
      simp [enrich_accel_csv, this] at hout
    have hmap : out = accel.map (enrichSample hs) := by
      have := hout
      simp [enrich_accel_csv, hcond] at this
      exact this.symm
    rw [hmap]
    exact List.mem_map_of_mem _ ha
  · intro hkpos
    have hmin : min (k - 1) (hs.length - 1) = k - 1 := by
      have : k - 1 ≤ hs.length - 1 := by omega
      exact Nat.min_eq_left this
    have hne : ¬(k = 0) := by omega
    refine ⟨countLE_getD_le hs a.timestamp_us hsort hkpos, ?_, ?_⟩
    · simp [enrichSample, ← hk, hmin, hne]
    · intro hlt
      exact countLE_getD_gt hs a.timestamp_us hsort hlt

/-- C1 witness: the amended theorem applied to the concrete sample at
timestamp 125 between the hall events at 100 and 200. -/
theorem C1_witness :
    (0 ≤ (enrichSample (sortHall hallPair) midSample).angle_deg ∧
        (enrichSample (sortHall hallPair) midSample).angle_deg < 360) ∧
    enrichSample (sortHall hallPair) midSample ∈
        [enrichSample (sortHall hallPair) midSample] ∧
    (0 < countLE (sortHall hallPair) midSample.timestamp_us →
      ((sortHall hallPair).getD (countLE (sortHall hallPair) midSample.timestamp_us - 1)
          defaultHallEvent).timestamp_us ≤ midSample.timestamp_us ∧
      (enrichSample (sortHall hallPair) midSample).rotation_num
        = ((sortHall hallPair).getD
            (countLE (sortHall hallPair) midSample.timestamp_us - 1)
            defaultHallEvent).rotation_num ∧
      (countLE (sortHall hallPair) midSample.timestamp_us < (sortHall hallPair).length →
        midSample.timestamp_us
          < ((sortHall hallPair).getD (countLE (sortHall hallPair) midSample.timestamp_us)
              defaultHallEvent).timestamp_us)) :=
  C1_sync_assignment [midSample] hallPair
    [enrichSample (sortHall hallPair) midSample] midSample
    (by rfl) (by decide) (by decide)

/-! ### C2 — angle invariant and the before-first-event edge case -/

/-- C2: for a sample with at least one rotation event at or before its timestamp,
`micros_since_hall` is the sample timestamp minus the assigned event's timestamp
and `angle_deg = (micros_since_hall / period_us) * 360 mod 360`; a sample
preceding the first rotation event gets `rotation_num = 0`,
`micros_since_hall = 0` and `angle_deg = 0`. -/
theorem C2_angle_invariant (hall : List HallEvent) (a : AccelRaw) :
    (0 < countLE (sortHall hall) a.timestamp_us →
      (enrichSample (sortHall hall) a).micros_since_hall
          = a.timestamp_us
            - ((sortHall hall).getD (countLE (sortHall hall) a.timestamp_us - 1)
                defaultHallEvent).timestamp_us ∧
      (enrichSample (sortHall hall) a).angle_deg
          = qfmod ((((enrichSample (sortHall hall) a).micros_since_hall : ℚ)
                / (((sortHall hall).getD (countLE (sortHall hall) a.timestamp_us - 1)
                    defaultHallEvent).period_us : ℚ)) * 360) 360) ∧
    (countLE (sortHall hall) a.timestamp_us = 0 →
      (enrichSample (sortHall hall) a).rotation_num = 0 ∧
      (enrichSample (sortHall hall) a).micros_since_hall = 0 ∧
      (enrichSample (sortHall hall) a).angle_deg = 0) := by
  set hs := sortHall hall with hhs
  set k := countLE hs a.timestamp_us with hk
  have hklen : k ≤ hs.length := countLE_le_length hs a.timestamp_us
  constructor
  · intro hkpos
    have hne : ¬(k = 0) := by omega
    have hmin : min (k - 1) (hs.length - 1) = k - 1 := by
      have : k - 1 ≤ hs.length - 1 := by omega
      exact Nat.min_eq_left this
    constructor
    · simp [enrichSample, ← hk, hmin, hne]
    · simp [enrichSample, ← hk, hmin, hne]
  · intro h0
    simp [enrichSample, ← hk, h0]

/-- C2 witness: for the sample at timestamp 125 the assigned event is the hall
event at 100 with period 50, so `micros_since_hall = 25` and
`angle_deg = (25 / 50) * 360 mod 360 = 180`; the early sample at timestamp 50
is zeroed. -/
theorem C2_witness :
    (enrichSample (sortHall hallPair) midSample).micros_since_hall = 25 ∧
    (enrichSample (sortHall hallPair) midSample).angle_deg = 180 ∧
    (enrichSample (sortHall hallPair) earlySample).rotation_num = 0 ∧
    (enrichSample (sortHall hallPair) earlySample).micros_since_hall = 0 ∧
    (enrichSample (sortHall hallPair) earlySample).angle_deg = 0 := by
  obtain ⟨h1, h2⟩ := (C2_angle_invariant hallPair midSample).1 (by decide)
  obtain ⟨h3, h4, h5⟩ := (C2_angle_invariant hallPair earlySample).2 (by decide)
  have hm : (enrichSample (sortHall hallPair) midSample).micros_since_hall = 25 := by
    rw [h1]
    decide
  have hp : ((sortHall hallPair).getD
      (countLE (sortHall hallPair) midSample.timestamp_us - 1)
      defaultHallEvent).period_us = 50 := by
    decide
  refine ⟨hm, ?_, h3, h4, h5⟩
  rw [h2, hm, hp]
  have harg : (((25 : ℕ) : ℚ) / ((50 : ℕ) : ℚ)) * 360 = 180 := by norm_num
  rw [harg, qfmod_eq_self] <;> norm_num

/-! ### C8 — saturation flags -/

/-- C8 counterexample: the legacy analysis path flags `is_y_saturated` with
`y >= 4094` and no absolute value, so the raw count `-4094`, whose magnitude
is at the threshold, is not flagged — refuting the claim that every flagged
channel uses `abs(value_raw) >= saturation_threshold`. -/
theorem C8_counterexample :
    is_y_saturated_legacy (-4094) = false ∧ (4094 : ℤ) ≤ |(-4094 : ℤ)| := by
  decide

/-- C8 (amended): the primary enrichment flags saturate on magnitude,
`abs(raw) >= 32700`, where `32700 / 32768` is within 0.1 percentage points of
99.8 percent of full scale; the legacy analysis path's `is_y_saturated` instead
compares the signed value directly (`y >= 4094`), missing negative saturation. -/
theorem C8_saturation_flags (hall : List HallEvent) (a : AccelRaw) :
    ((enrichSample hall a).is_x_saturated = true ↔ SATURATION_THRESHOLD ≤ |a.x|) ∧
    ((enrichSample hall a).is_gz_saturated = true ↔ SATURATION_THRESHOLD ≤ |a.gz|) ∧
    (∀ y : ℤ, is_y_saturated_legacy y = true ↔ 4094 ≤ y) ∧
    |(SATURATION_THRESHOLD : ℚ) / 32768 - 998 / 1000| < 1 / 1000 := by
  refine ⟨?_, ?_, ?_, ?_⟩
  · simp [enrichSample]
  · simp [enrichSample]
  · intro y
    simp [is_y_saturated_legacy]
  · rw [abs_lt]
    norm_num [SATURATION_THRESHOLD]

/-! ### Real-arithmetic helper lemmas -/

lemma fmodR_nonneg (a : ℝ) {b : ℝ} (hb : 0 < b) : 0 ≤ fmodR a b := by
  unfold fmodR
  have h : ((⌊a / b⌋ : ℝ)) ≤ a / b := Int.floor_le (a / b)
  have h2 : b * (⌊a / b⌋ : ℝ) ≤ b * (a / b) := mul_le_mul_of_nonneg_left h hb.le
  have h3 : b * (a / b) = a := by field_simp
  linarith

lemma fmodR_lt (a : ℝ) {b : ℝ} (hb : 0 < b) : fmodR a b < b := by
  unfold fmodR
  have h : a / b < (⌊a / b⌋ : ℝ) + 1 := Int.lt_floor_add_one (a / b)
  have h2 : b * (a / b) < b * ((⌊a / b⌋ : ℝ) + 1) := mul_lt_mul_of_pos_left h hb
  have h3 : b * (a / b) = a := by field_simp
  nlinarith

lemma fmodR_eq_self {a b : ℝ} (hb : 0 < b) (h0 : 0 ≤ a) (h1 : a < b) : fmodR a b = a := by
  unfold fmodR
  have hfl : ⌊a / b⌋ = 0 := by
    rw [Int.floor_eq_zero_iff]
    exact ⟨div_nonneg h0 hb.le, (div_lt_one hb).mpr h1⟩
  rw [hfl]
  ring

lemma roundHalfEven_intCast (z : ℤ) : roundHalfEven (z : ℝ) = z := by
  unfold roundHalfEven
  rw [Int.fract_intCast, Int.floor_intCast]
  norm_num

lemma pyRound_intCast (d : ℕ) (z : ℤ) : pyRound d (z : ℝ) = (z : ℝ) := by
  unfold pyRound
  have h : ((z : ℝ) * 10 ^ d) = ((z * 10 ^ d : ℤ) : ℝ) := by push_cast; ring
  rw [h, roundHalfEven_intCast]
  push_cast
  have hp : ((10 : ℝ) ^ d) ≠ 0 := by positivity
  field_simp

lemma degreesR_radiansR (p : ℝ) : degreesR (radiansR p) = p := by
  unfold degreesR radiansR
  have hpi : Real.pi ≠ 0 := Real.pi_ne_zero
  field_simp

/-! ### C4 — empty confidence set -/

/-- C4 counterexample: for an empty estimate list (vacuously, no estimate beats
the 0.15 floor) `_compute_phase_summary` returns the empty dict `{}`: the
`n_estimates` key is absent, not `0`, refuting the claim that the aggregator
then reports `n_estimates = 0`.  No phase value is reported either way. -/
theorem C4_counterexample :
    (computePhaseSummary []).n_estimates = none ∧
    (computePhaseSummary []).n_estimates ≠ some 0 ∧
    (computePhaseSummary []).mean_phase_deg = none := by
  refine ⟨?_, ?_, ?_⟩ <;> simp [computePhaseSummary]

/-- C4 (amended): for a nonempty estimate list in which no estimate has
`r_squared` strictly above the 0.15 confidence floor, the aggregator returns
`n_estimates = 0` and no phase, standard deviation, counterweight or estimate
values at all — never a default phase; for the empty list it returns the empty
summary (the counterexample's case). -/
theorem C4_empty_confidence (es : List PhaseEstimate) (hne : es ≠ [])
    (hlow : ∀ e ∈ es, e.r_squared ≤ 0.15) :
    (computePhaseSummary es).n_estimates = some 0 ∧
    (computePhaseSummary es).mean_phase_deg = none ∧
    (computePhaseSummary es).circular_std_deg = none ∧
    (computePhaseSummary es).counterweight_deg = none ∧
    (computePhaseSummary es).estimates = [] := by
  have hgood : goodEstimates es = [] := by
    refine List.filter_eq_nil_iff.mpr ?_
    intro e he
    simp only [decide_eq_true_eq, not_lt]
    exact hlow e he
  have hES : ¬(es.isEmpty = true) := by
    simpa [List.isEmpty_iff] using hne
  simp [computePhaseSummary, hES, hgood]

/-- Estimate below the confidence floor, used by the C4 witness. -/
noncomputable def lowConfEstimate : PhaseEstimate := ⟨10, 0.1⟩

/-- C4 witness: the amended theorem at the one-element list holding a phase of
10 degrees with confidence 0.1. -/
theorem C4_witness :
    (computePhaseSummary [lowConfEstimate]).n_estimates = some 0 ∧
    (computePhaseSummary [lowConfEstimate]).mean_phase_deg = none ∧
    (computePhaseSummary [lowConfEstimate]).circular_std_deg = none ∧
    (computePhaseSummary [lowConfEstimate]).counterweight_deg = none ∧
    (computePhaseSummary [lowConfEstimate]).estimates = [] :=
  C4_empty_confidence [lowConfEstimate] (by simp)
    (by
      intro e he
      simp only [List.mem_singleton] at he
      subst he
      norm_num [lowConfEstimate])

/-! ### C10 — missing and empty input tables -/

/-- C10 counterexample: a present-but-empty hall event table (and likewise an
empty accelerometer table) is loaded successfully by `load_and_enrich`, which
only checks for absent files — refuting the claim that an empty required table
aborts the run. -/
theorem C10_counterexample :
    (load_and_enrich (some [enrichSample hallPair midSample]) (some [])).isOk = true ∧
    (load_and_enrich (some []) (some hallPair)).isOk = true := by
  decide

/-- C10 (amended): an absent accelerometer or hall table makes `load_and_enrich`
fail immediately with an error naming the missing artifact and no partial result,
but a present table — empty or not — is always loaded successfully. -/
theorem C10_missing_tables :
    (∀ hall, load_and_enrich none hall = Except.error "Accelerometer data not found") ∧
    (∀ accel, load_and_enrich (some accel) none = Except.error "Hall event data not found") ∧
    (∀ accel hall, (load_and_enrich (some accel) (some hall)).isOk = true) :=
  ⟨fun _ => rfl, fun _ => rfl, fun _ _ => rfl⟩

/-! ### Roots-of-unity sums -/

/-- The discrete Fourier kernel `exp(2*pi*i*d*j/n)` with an integer order `d`. -/
noncomputable def unitExp (d : ℤ) (j n : ℕ) : ℂ :=
  Complex.exp (2 * (Real.pi : ℂ) * Complex.I * (d : ℂ) * (j : ℂ) / (n : ℂ))

/-- Orthogonality of the discrete Fourier kernel: the sum of the `n`-th roots of
unity raised to the `d`-th power vanishes unless `n` divides `d`. -/
lemma sumExpUnit (n : ℕ) (hn : 0 < n) (d : ℤ) :
    ∑ j ∈ Finset.range n, unitExp d j n = if (n : ℤ) ∣ d then (n : ℂ) else 0 := by
  have hn0 : (n : ℂ) ≠ 0 := Nat.cast_ne_zero.mpr hn.ne'
  have hterm : ∀ j ∈ Finset.range n,
      unitExp d j n
        = Complex.exp (2 * (Real.pi : ℂ) * Complex.I * (d : ℂ) / (n : ℂ)) ^ j := by
    intro j _
    unfold unitExp
    rw [← Complex.exp_nat_mul]
    congr 1
    ring
  rw [Finset.sum_congr rfl hterm]
  by_cases hdvd : (n : ℤ) ∣ d
  · obtain ⟨c, hc⟩ := hdvd
    have hx1 : Complex.exp (2 * (Real.pi : ℂ) * Complex.I * (d : ℂ) / (n : ℂ)) = 1 := by
      have harg : 2 * (Real.pi : ℂ) * Complex.I * (d : ℂ) / (n : ℂ)
          = (c : ℂ) * (2 * (Real.pi : ℂ) * Complex.I) := by
        rw [hc]
        push_cast
        field_simp
        ring
      rw [harg]
      exact Complex.exp_int_mul_two_pi_mul_I c
    rw [hx1]
    rw [if_pos ⟨c, hc⟩]
    simp
  · have hpiC : ((Real.pi : ℂ)) ≠ 0 := Complex.ofReal_ne_zero.mpr Real.pi_ne_zero
    have hfactor : (2 : ℂ) * (Real.pi : ℂ) * Complex.I ≠ 0 :=
      mul_ne_zero (mul_ne_zero two_ne_zero hpiC) Complex.I_ne_zero
    have hx1 : Complex.exp (2 * (Real.pi : ℂ) * Complex.I * (d : ℂ) / (n : ℂ)) ≠ 1 := by
      intro hcontra
      obtain ⟨m, hm⟩ := Complex.exp_eq_one_iff.mp hcontra
      apply hdvd
      have hmain : (2 : ℂ) * (Real.pi : ℂ) * Complex.I * (d : ℂ)
          = (2 : ℂ) * (Real.pi : ℂ) * Complex.I * ((m : ℂ) * (n : ℂ)) := by
        field_simp at hm
        linear_combination hm
      have hd : (d : ℂ) = ((m * n : ℤ) : ℂ) := by
        have hcancel := mul_left_cancel₀ hfactor hmain
        push_cast
        linear_combination hcancel
      have hdz : d = m * n := by exact_mod_cast hd
      exact ⟨m, by rw [hdz]; ring⟩
    have hxn : Complex.exp (2 * (Real.pi : ℂ) * Complex.I * (d : ℂ) / (n : ℂ)) ^ n = 1 := by
      rw [← Complex.exp_nat_mul]
      have harg : (n : ℂ) * (2 * (Real.pi : ℂ) * Complex.I * (d : ℂ) / (n : ℂ))
          = (d : ℂ) * (2 * (Real.pi : ℂ) * Complex.I) := by
        field_simp
        ring
      rw [harg]
      exact Complex.exp_int_mul_two_pi_mul_I d
    rw [geom_sum_eq hx1, hxn, if_neg hdvd]
    simp

lemma unitExp_mul (a b : ℤ) (j n : ℕ) :
    unitExp a j n * unitExp b j n = unitExp (a + b) j n := by
  unfold unitExp
  rw [← Complex.exp_add]
  congr 1
  push_cast
  ring

lemma unitExp_zero (j n : ℕ) : unitExp 0 j n = 1 := by
  unfold unitExp
  norm_num

/-- Complex sine in terms of the exponential (definitional). -/
lemma complexSin_expand (z : ℂ) :
    Complex.sin z
      = (Complex.exp (-z * Complex.I) - Complex.exp (z * Complex.I)) * Complex.I / 2 := rfl

/-! ### Concrete binned arrays for the analyzer claims -/

/-- A unit impulse in bin 0, a degenerate binned array. -/
noncomputable def impulseBins : ℕ → ℝ := fun j => if j = 0 then 1 else 0

/-- A pure unit sine wave over the 72 angular bins, `sin(2*pi*j/72)`. -/
noncomputable def sinBins : ℕ → ℝ := fun j => Real.sin (anglesLinspace 72 j)

lemma rfftBin_impulse : rfftBin 72 impulseBins 1 = 1 := by
  unfold rfftBin impulseBins
  rw [Finset.sum_eq_single_of_mem 0 (by simp)]
  · norm_num
  · intro b _ hb
    simp [hb]

lemma sinBins_ofReal (j : ℕ) : ((sinBins j : ℝ) : ℂ)
    = (unitExp (-1) j 72 - unitExp 1 j 72) * Complex.I / 2 := by
  unfold sinBins anglesLinspace unitExp
  rw [Complex.ofReal_sin, complexSin_expand]
  have h1 : -((2 * Real.pi * (j : ℝ) / ((72 : ℕ) : ℝ) : ℝ) : ℂ) * Complex.I
      = 2 * (Real.pi : ℂ) * Complex.I * ((-1 : ℤ) : ℂ) * (j : ℂ) / ((72 : ℕ) : ℂ) := by
    push_cast
    ring
  have h2 : ((2 * Real.pi * (j : ℝ) / ((72 : ℕ) : ℝ) : ℝ) : ℂ) * Complex.I
      = 2 * (Real.pi : ℂ) * Complex.I * ((1 : ℤ) : ℂ) * (j : ℂ) / ((72 : ℕ) : ℂ) := by
    push_cast
    ring
  rw [h1, h2]

lemma rfftBin_sinBins : rfftBin 72 sinBins 1 = -36 * Complex.I := by
  unfold rfftBin
  have hterm : ∀ j ∈ Finset.range 72,
      ((sinBins j : ℝ) : ℂ)
          * Complex.exp (-(2 * (Real.pi : ℂ) * Complex.I) * (j : ℂ) * ((1 : ℕ) : ℂ)
              / ((72 : ℕ) : ℂ))
        = Complex.I / 2 * (unitExp (-2) j 72 - 1) := by
    intro j _
    have hfactor : Complex.exp (-(2 * (Real.pi : ℂ) * Complex.I) * (j : ℂ) * ((1 : ℕ) : ℂ)
            / ((72 : ℕ) : ℂ))
        = unitExp (-1) j 72 := by
      unfold unitExp
      congr 1
      push_cast
      ring
    rw [hfactor, sinBins_ofReal j]
    calc (unitExp (-1) j 72 - unitExp 1 j 72) * Complex.I / 2 * unitExp (-1) j 72
        = Complex.I / 2
            * (unitExp (-1) j 72 * unitExp (-1) j 72 - unitExp 1 j 72 * unitExp (-1) j 72) := by
          ring
      _ = Complex.I / 2 * (unitExp (-2) j 72 - 1) := by
          rw [unitExp_mul, unitExp_mul]
          norm_num [unitExp_zero]
  rw [Finset.sum_congr rfl hterm, ← Finset.mul_sum, Finset.sum_sub_distrib]
  rw [sumExpUnit 72 (by norm_num) (-2), if_neg (by decide)]
  simp only [Finset.sum_const, Finset.card_range, nsmul_eq_mul, mul_one]
  push_cast
  ring

lemma sum_sinBins : ∑ j ∈ Finset.range 72, sinBins j = 0 := by
  have hC : ((∑ j ∈ Finset.range 72, sinBins j : ℝ) : ℂ) = 0 := by
    push_cast
    rw [Finset.sum_congr rfl (fun j _ => sinBins_ofReal j)]
    have hsplit : ∀ j ∈ Finset.range 72,
        (unitExp (-1) j 72 - unitExp 1 j 72) * Complex.I / 2
          = Complex.I / 2 * (unitExp (-1) j 72 - unitExp 1 j 72) := by
      intro j _
      ring
    rw [Finset.sum_congr rfl hsplit, ← Finset.mul_sum, Finset.sum_sub_distrib]
    rw [sumExpUnit 72 (by norm_num) (-1), sumExpUnit 72 (by norm_num) 1]
    rw [if_neg (by decide), if_neg (by decide)]
    ring
  exact_mod_cast hC

lemma sinBins_eighteen : sinBins 18 = 1 := by
  unfold sinBins anglesLinspace
  have harg : 2 * Real.pi * ((18 : ℕ) : ℝ) / ((72 : ℕ) : ℝ) = Real.pi / 2 := by
    push_cast
    ring
  rw [harg, Real.sin_pi_div_two]


lemma computeSinusoidR2_sinBins :
    computeSinusoidR2 72 sinBins (some ⟨1, 0, 0⟩) = 1 := by
  unfold computeSinusoidR2
  have hres : ∑ j ∈ Finset.range 72,
      (sinBins j - sinusoidModel ⟨1, 0, 0⟩ (anglesLinspace 72 j)) ^ 2 = 0 := by
    refine Finset.sum_eq_zero ?_
    intro j _
    simp [sinusoidModel, sinBins]
  have hmean : npMean 72 sinBins = 0 := by
    unfold npMean
    rw [sum_sinBins]
    simp
  have htot : ∑ j ∈ Finset.range 72, (sinBins j - npMean 72 sinBins) ^ 2
      = ∑ j ∈ Finset.range 72, sinBins j ^ 2 := by
    rw [hmean]
    simp
  have hpos : 0 < ∑ j ∈ Finset.range 72, (sinBins j - npMean 72 sinBins) ^ 2 := by
    rw [htot]
    have hle : (1 : ℝ) ≤ ∑ j ∈ Finset.range 72, sinBins j ^ 2 := by
      have h18 : sinBins 18 ^ 2 = 1 := by rw [sinBins_eighteen]; norm_num
      calc (1 : ℝ) = sinBins 18 ^ 2 := h18.symm
        _ ≤ ∑ j ∈ Finset.range 72, sinBins j ^ 2 :=
            Finset.single_le_sum (fun i _ => sq_nonneg (sinBins i)) (by norm_num)
    linarith
  simp only [hres]
  rw [if_pos hpos]
  simp

lemma analyzeAxis_sinBins :
    analyzeAxis 72 sinBins (some ⟨1, 0, 0⟩) = (⟨36, -90, 1⟩, some ⟨-90, 1⟩) := by
  unfold analyzeAxis
  rw [rfftBin_sinBins, computeSinusoidR2_sinBins]
  have habs : Complex.abs (-36 * Complex.I) = 36 := by
    rw [show (-36 * Complex.I : ℂ) = ((36 : ℝ) : ℂ) * (-Complex.I) by push_cast; ring]
    rw [map_mul]
    simp
  have harg : Complex.arg (-36 * Complex.I) = -(Real.pi / 2) := by
    rw [show (-36 * Complex.I : ℂ) = ((36 : ℝ) : ℂ) * (-Complex.I) by push_cast; ring]
    rw [Complex.arg_real_mul _ (by norm_num : (0 : ℝ) < 36)]
    exact Complex.arg_neg_I
  have hdeg : degreesR (-(Real.pi / 2)) = -90 := by
    unfold degreesR
    have hpi : Real.pi ≠ 0 := Real.pi_ne_zero
    field_simp
    ring
  rw [habs, harg, hdeg]
  have h36 : pyRound 4 (36 : ℝ) = 36 := by
    have := pyRound_intCast 4 36
    push_cast at this
    exact this
  have h90 : pyRound 1 (-90 : ℝ) = -90 := by
    have := pyRound_intCast 1 (-90)
    push_cast at this
    exact this
  have hone : pyRound 3 (1 : ℝ) = 1 := by
    have := pyRound_intCast 3 1
    push_cast at this
    exact this
  rw [h36, h90, hone, if_pos (by norm_num : (0.15 : ℝ) < 1)]

/-! ### C5 — fit convergence failure -/

/-- C5 counterexample: when the sinusoid fit raises (`fit = none`),
`_compute_sinusoid_r2` returns `0.0` and the per-position metrics still record
the slice — here with FFT magnitude 1 and phase 0 — as a real-looking record
carrying zero confidence, refuting "the failure is never surfaced as a
real-looking estimate carrying zero confidence"; the slice is however excluded
from `all_phase_estimates`. -/
theorem C5_counterexample :
    (analyzeAxis 72 impulseBins none).1.magnitude_g = 1 ∧
    (analyzeAxis 72 impulseBins none).1.phase_deg = 0 ∧
    (analyzeAxis 72 impulseBins none).1.r_squared = 0 ∧
    (analyzeAxis 72 impulseBins none).2 = none := by
  unfold analyzeAxis
  rw [rfftBin_impulse]
  have hr2 : computeSinusoidR2 72 impulseBins none = 0 := rfl
  rw [hr2]
  have habs : Complex.abs 1 = 1 := map_one Complex.abs
  have harg : Complex.arg 1 = 0 := Complex.arg_one
  have hdeg : degreesR 0 = 0 := by unfold degreesR; ring
  rw [habs, harg, hdeg]
  have h1 : pyRound 4 (1 : ℝ) = 1 := by
    have := pyRound_intCast 4 1
    push_cast at this
    exact this
  have h0a : pyRound 1 (0 : ℝ) = 0 := by
    have := pyRound_intCast 1 0
    push_cast at this
    exact this
  have h0b : pyRound 3 (0 : ℝ) = 0 := by
    have := pyRound_intCast 3 0
    push_cast at this
    exact this
  rw [h1, h0a, h0b, if_neg (by norm_num : ¬((0.15 : ℝ) < 0))]
  exact ⟨rfl, rfl, rfl, rfl⟩

/-- C5 (amended): a failed fit yields `r_squared = 0.0`; because `0 ≤ 0.15` the
slice contributes nothing to `all_phase_estimates` (no element of the list ever
has `r_squared ≤ 0.15`) and the run continues, but the per-position metrics do
record the slice with zero confidence. -/
theorem C5_fit_failure (n : ℕ) (bins : ℕ → ℝ) :
    (analyzeAxis n bins none).2 = none ∧
    (analyzeAxis n bins none).1.r_squared = pyRound 3 0 ∧
    (∀ fit e, (analyzeAxis n bins fit).2 = some e → 0.15 < e.r_squared) := by
  refine ⟨?_, ?_, ?_⟩
  · unfold analyzeAxis
    have hr2 : computeSinusoidR2 n bins none = 0 := rfl
    rw [hr2, if_neg (by norm_num : ¬((0.15 : ℝ) < 0))]
  · unfold analyzeAxis
    have hr2 : computeSinusoidR2 n bins none = 0 := rfl
    rw [hr2]
  · intro fit e he
    unfold analyzeAxis at he
    by_cases hlt : (0.15 : ℝ) < computeSinusoidR2 n bins fit
    · rw [if_pos hlt] at he
      have he2 := Option.some_inj.mp he
      rw [← he2]
      exact hlt
    · rw [if_neg hlt] at he
      exact absurd he (by simp)

/-! ### C7 — reported phase provenance and range -/

/-- C7 counterexample: for a pure unit sine wave over the 72 bins, the fit's
true optimum is `A = 1, phi = 0, offset = 0` (residual zero, `r_squared = 1`),
yet the reported phase is the FFT bin-1 angle `-90` degrees — not the fitted
`phi = 0` wrapped to `[0, 360)` — and `-90` lies outside `[0, 360)`, refuting
both parts of the claim. -/
theorem C7_counterexample :
    (analyzeAxis 72 sinBins (some ⟨1, 0, 0⟩)).2 = some ⟨-90, 1⟩ ∧
    (analyzeAxis 72 sinBins (some ⟨1, 0, 0⟩)).1.phase_deg = -90 ∧
    ¬(0 ≤ (-90 : ℝ)) ∧
    (-90 : ℝ) ≠ 0 := by
  rw [analyzeAxis_sinBins]
  exact ⟨rfl, rfl, by norm_num, by norm_num⟩

/-- C7 (amended): every reported phase — in the metrics record and in any
retained estimate — is the FFT bin-1 angle converted to degrees, which lies in
`(-180, 180]`; the nonlinear fit contributes only `r_squared`. -/
theorem C7_phase_range (n : ℕ) (bins : ℕ → ℝ) (fit : Option FitParams) :
    (analyzeAxis n bins fit).1.phase_deg
        = pyRound 1 (degreesR (Complex.arg (rfftBin n bins 1))) ∧
    (∀ e, (analyzeAxis n bins fit).2 = some e →
      e.phase_deg = degreesR (Complex.arg (rfftBin n bins 1)) ∧
      -180 < e.phase_deg ∧ e.phase_deg ≤ 180) := by
  constructor
  · rfl
  · intro e he
    unfold analyzeAxis at he
    by_cases hlt : (0.15 : ℝ) < computeSinusoidR2 n bins fit
    · rw [if_pos hlt] at he
      have he2 := Option.some_inj.mp he
      rw [← he2]
      have harg1 := Complex.neg_pi_lt_arg (rfftBin n bins 1)
      have harg2 := Complex.arg_le_pi (rfftBin n bins 1)
      have hpi : (0 : ℝ) < Real.pi := Real.pi_pos
      have hscale : (0 : ℝ) < 180 / Real.pi := by positivity
      refine ⟨rfl, ?_, ?_⟩
      · show -180 < degreesR (Complex.arg (rfftBin n bins 1))
        unfold degreesR
        have hlow := mul_lt_mul_of_pos_right harg1 hscale
        have hval : -Real.pi * (180 / Real.pi) = -180 := by
          field_simp
          ring
        linarith
      · show degreesR (Complex.arg (rfftBin n bins 1)) ≤ 180
        unfold degreesR
        have hhigh := mul_le_mul_of_nonneg_right harg2 hscale.le
        have hval : Real.pi * (180 / Real.pi) = 180 := by
          field_simp
        linarith
    · rw [if_neg hlt] at he
      exact absurd he (by simp)

/-- C5 witness: the third conjunct of the amended theorem at the sine-wave
slice, whose retained estimate has confidence 1. -/
theorem C5_witness : (0.15 : ℝ) < (⟨-90, 1⟩ : PhaseEstimate).r_squared :=
  (C5_fit_failure 72 sinBins).2.2 (some ⟨1, 0, 0⟩) ⟨-90, 1⟩
    (by rw [analyzeAxis_sinBins])

/-! ### C3 — circular-mean wraparound -/

lemma atan2_zero_pos {x : ℝ} (hx : 0 < x) : atan2 0 x = 0 := by
  unfold atan2
  rw [if_pos hx]
  simp [Real.arctan_zero]

lemma degreesR_zero : degreesR 0 = 0 := by
  unfold degreesR
  ring

lemma sin_radiansR_threefiftynine :
    Real.sin (radiansR 359) = -Real.sin (Real.pi / 180) := by
  unfold radiansR
  rw [show (359 : ℝ) * (Real.pi / 180) = 2 * Real.pi - Real.pi / 180 by ring]
  rw [Real.sin_sub]
  simp [Real.sin_two_pi, Real.cos_two_pi]

lemma cos_radiansR_threefiftynine :
    Real.cos (radiansR 359) = Real.cos (Real.pi / 180) := by
  unfold radiansR
  rw [show (359 : ℝ) * (Real.pi / 180) = 2 * Real.pi - Real.pi / 180 by ring]
  rw [Real.cos_sub]
  simp [Real.sin_two_pi, Real.cos_two_pi]

lemma sin_radiansR_one : Real.sin (radiansR 1) = Real.sin (Real.pi / 180) := by
  unfold radiansR
  rw [one_mul]

lemma cos_radiansR_one : Real.cos (radiansR 1) = Real.cos (Real.pi / 180) := by
  unfold radiansR
  rw [one_mul]

lemma cos_pi_div_oneeighty_pos : 0 < Real.cos (Real.pi / 180) := by
  have hpi : 0 < Real.pi := Real.pi_pos
  refine Real.cos_pos_of_mem_Ioo ⟨?_, ?_⟩
  · linarith
  · linarith

/-- C3: the circular aggregator's weighted mean of the phase set `{359, 1}`
with any equal positive weights is exactly `0` degrees — in particular within
half a degree of `0` and not `180`; when the weights moreover clear the 0.15
confidence floor, `0` is also the phase stored in the summary. -/
theorem C3_circular_mean (w : ℝ) (hw0 : 0 < w) :
    weightedCircularMean [⟨359, w⟩, ⟨1, w⟩] = 0 ∧
    (0.15 < w → (computePhaseSummary [⟨359, w⟩, ⟨1, w⟩]).mean_phase_deg = some 0) ∧
    |weightedCircularMean [⟨359, w⟩, ⟨1, w⟩] - 0| ≤ 1 / 2 ∧
    weightedCircularMean [⟨359, w⟩, ⟨1, w⟩] ≠ 180 := by
  have hsin : (([⟨359, w⟩, ⟨1, w⟩] : List PhaseEstimate).map
      fun e => e.r_squared * Real.sin (radiansR e.phase_deg)).sum = 0 := by
    simp only [List.map_cons, List.map_nil, List.sum_cons, List.sum_nil]
    rw [sin_radiansR_threefiftynine, sin_radiansR_one]
    ring
  have hcos : (([⟨359, w⟩, ⟨1, w⟩] : List PhaseEstimate).map
      fun e => e.r_squared * Real.cos (radiansR e.phase_deg)).sum
      = 2 * w * Real.cos (Real.pi / 180) := by
    simp only [List.map_cons, List.map_nil, List.sum_cons, List.sum_nil]
    rw [cos_radiansR_threefiftynine, cos_radiansR_one]
    ring
  have hcospos : 0 < 2 * w * Real.cos (Real.pi / 180) := by
    have := cos_pi_div_oneeighty_pos
    positivity
  have hmean : weightedCircularMean [⟨359, w⟩, ⟨1, w⟩] = 0 := by
    unfold weightedCircularMean
    rw [hsin, hcos]
    show fmodR (degreesR (atan2 0 (2 * w * Real.cos (Real.pi / 180)))) 360 = 0
    rw [atan2_zero_pos hcospos, degreesR_zero]
    rw [fmodR_eq_self (by norm_num) le_rfl (by norm_num)]
  refine ⟨hmean, ?_, ?_, ?_⟩
  · intro hw
    have hgood : goodEstimates [⟨359, w⟩, ⟨1, w⟩] = [⟨359, w⟩, ⟨1, w⟩] := by
      unfold goodEstimates
      simp [List.filter, hw]
    unfold computePhaseSummary
    rw [hgood]
    simp only [List.isEmpty_cons, Bool.false_eq_true, if_false]
    rw [hsin, hcos, atan2_zero_pos hcospos, degreesR_zero]
    rw [fmodR_eq_self (by norm_num) le_rfl (by norm_num)]
    have h0 : pyRound 1 (0 : ℝ) = 0 := by
      have := pyRound_intCast 1 0
      push_cast at this
      exact this
    rw [h0]
  · rw [hmean]
    norm_num
  · rw [hmean]
    norm_num

/-- C3 witness: the theorem at the concrete weight `0.9`. -/
theorem C3_witness :
    weightedCircularMean [⟨359, 0.9⟩, ⟨1, 0.9⟩] = 0 ∧
    ((0.15 : ℝ) < 0.9 →
      (computePhaseSummary [⟨359, 0.9⟩, ⟨1, 0.9⟩]).mean_phase_deg = some 0) ∧
    |weightedCircularMean [⟨359, 0.9⟩, ⟨1, 0.9⟩] - 0| ≤ 1 / 2 ∧
    weightedCircularMean [⟨359, 0.9⟩, ⟨1, 0.9⟩] ≠ 180 :=
  C3_circular_mean 0.9 (by norm_num)

/-! ### C6 — counterweight complement invariant -/

lemma atan2_mul_sin_cos {r θ : ℝ} (hr : 0 < r) (h1 : Real.pi / 2 < θ) (h2 : θ < Real.pi) :
    atan2 (r * Real.sin θ) (r * Real.cos θ) = θ := by
  have hpi : (0 : ℝ) < Real.pi := Real.pi_pos
  have hcos : Real.cos θ < 0 := Real.cos_neg_of_pi_div_two_lt_of_lt h1 (by linarith)
  have hsin : 0 < Real.sin θ := Real.sin_pos_of_pos_of_lt_pi (by linarith) h2
  have hx : r * Real.cos θ < 0 := mul_neg_of_pos_of_neg hr hcos
  have hy : 0 ≤ r * Real.sin θ := le_of_lt (mul_pos hr hsin)
  unfold atan2
  rw [if_neg (by linarith), if_pos hx, if_pos hy]
  have hyx : r * Real.sin θ / (r * Real.cos θ) = Real.tan θ := by
    rw [Real.tan_eq_sin_div_cos, mul_div_mul_left _ _ hr.ne']
  rw [hyx]
  have htan : Real.tan θ = Real.tan (θ - Real.pi) := (Real.tan_periodic.sub_eq θ).symm
  rw [htan, Real.arctan_tan (by linarith) (by linarith)]
  ring

lemma roundHalfEven_17996 : roundHalfEven (1799.6 : ℝ) = 1800 := by
  unfold roundHalfEven
  have hfl : ⌊(1799.6 : ℝ)⌋ = 1799 := Int.floor_eq_iff.mpr ⟨by norm_num, by norm_num⟩
  have hfr : Int.fract (1799.6 : ℝ) = 0.6 := by
    simp only [Int.fract, hfl]
    norm_num
  rw [hfr, hfl, if_neg (by norm_num), if_pos (by norm_num)]
  norm_num

lemma roundHalfEven_35996 : roundHalfEven (3599.6 : ℝ) = 3600 := by
  unfold roundHalfEven
  have hfl : ⌊(3599.6 : ℝ)⌋ = 3599 := Int.floor_eq_iff.mpr ⟨by norm_num, by norm_num⟩
  have hfr : Int.fract (3599.6 : ℝ) = 0.6 := by
    simp only [Int.fract, hfl]
    norm_num
  rw [hfr, hfl, if_neg (by norm_num), if_pos (by norm_num)]
  norm_num

lemma pyRound_one_17996 : pyRound 1 (179.96 : ℝ) = 180 := by
  unfold pyRound
  rw [show (179.96 : ℝ) * 10 ^ 1 = 1799.6 by norm_num, roundHalfEven_17996]
  norm_num

lemma pyRound_one_35996 : pyRound 1 (359.96 : ℝ) = 360 := by
  unfold pyRound
  rw [show (359.96 : ℝ) * 10 ^ 1 = 3599.6 by norm_num, roundHalfEven_35996]
  norm_num

lemma goodEstimates_17996 :
    goodEstimates [⟨179.96, 0.9⟩] = [(⟨179.96, 0.9⟩ : PhaseEstimate)] := by
  unfold goodEstimates
  simp only [List.filter]
  norm_num

/-- Full evaluation of the phase summary at the single estimate with phase
179.96 degrees and confidence 0.9: the stored rounded mean is 180.0 and the
stored rounded counterweight is 360.0. -/
lemma summary_single_17996 :
    (computePhaseSummary [⟨179.96, 0.9⟩]).mean_phase_deg = some 180 ∧
    (computePhaseSummary [⟨179.96, 0.9⟩]).counterweight_deg = some 360 := by
  have hpi : (0 : ℝ) < Real.pi := Real.pi_pos
  have hθlo : Real.pi / 2 < radiansR 179.96 := by
    unfold radiansR
    linarith
  have hθhi : radiansR 179.96 < Real.pi := by
    unfold radiansR
    linarith
  have hmean : fmodR (degreesR (atan2 (0.9 * Real.sin (radiansR 179.96))
      (0.9 * Real.cos (radiansR 179.96)))) 360 = 179.96 := by
    rw [atan2_mul_sin_cos (by norm_num) hθlo hθhi, degreesR_radiansR]
    exact fmodR_eq_self (by norm_num) (by norm_num) (by norm_num)
  unfold computePhaseSummary
  rw [goodEstimates_17996]
  simp only [List.isEmpty_cons, Bool.false_eq_true, if_false,
    List.map_cons, List.map_nil, List.sum_cons, List.sum_nil, add_zero]
  rw [hmean]
  rw [show (179.96 : ℝ) + 180 = 359.96 by norm_num]
  rw [fmodR_eq_self (by norm_num) (by norm_num) (by norm_num)]
  rw [pyRound_one_17996, pyRound_one_35996]
  exact ⟨rfl, rfl⟩

/-- C6 counterexample: for the single estimate with phase 179.96 degrees and
confidence 0.9, the summary stores `mean_phase_deg = 180.0` and
`counterweight_deg = 360.0`, but `(180.0 + 180) mod 360 = 0 ≠ 360.0`: the
invariant fails on the rounded stored metrics (rounding up crosses the wrap
boundary), refuting "exactly, including in the rounded values". -/
theorem C6_counterexample :
    (computePhaseSummary [⟨179.96, 0.9⟩]).mean_phase_deg = some 180 ∧
    (computePhaseSummary [⟨179.96, 0.9⟩]).counterweight_deg = some 360 ∧
    fmodR (180 + 180) 360 = 0 ∧
    (360 : ℝ) ≠ 0 := by
  obtain ⟨h1, h2⟩ := summary_single_17996
  refine ⟨h1, h2, ?_, by norm_num⟩
  rw [show (180 : ℝ) + 180 = 360 by norm_num]
  unfold fmodR
  rw [show (360 : ℝ) / 360 = 1 by norm_num, Int.floor_one]
  norm_num

lemma argmaxIdx_lt (n : ℕ) (f : ℕ → ℝ) (hn : 0 < n) : argmaxIdx n f < n := by
  unfold argmaxIdx
  have hgen : ∀ (l : List ℕ) (acc : ℕ), acc < n → (∀ j ∈ l, j < n) →
      (l.foldl (fun best j => if f best < f j then j else best) acc) < n := by
    intro l
    induction l with
    | nil =>
        intro acc hacc _
        simpa using hacc
    | cons x xs ih =>
        intro acc hacc hmem
        simp only [List.foldl_cons]
        apply ih
        · by_cases hx : f acc < f x
          · rw [if_pos hx]
            exact hmem x (by simp)
          · rw [if_neg hx]
            exact hacc
        · intro j hj
          exact hmem j (by simp [hj])
  apply hgen
  · exact hn
  · intro j hj
    exact List.mem_range.mp hj

lemma fmodR_in_second {a b : ℝ} (hb : 0 < b) (h1 : b ≤ a) (h2 : a < 2 * b) :
    fmodR a b = a - b := by
  unfold fmodR
  have hfl : ⌊a / b⌋ = 1 := by
    refine Int.floor_eq_iff.mpr ⟨?_, ?_⟩
    · push_cast
      rw [le_div_iff hb]
      linarith
    · push_cast
      rw [div_lt_iff hb]
      linarith
  rw [hfl]
  push_cast
  ring

/-- C6 (amended): whenever the circular aggregator produces a full summary, the
exact (unrounded) mean phase `m` lies in `[0, 360)`, the stored mean is
`round(m, 1)` and the stored counterweight is `round((m + 180) mod 360, 1)` —
the invariant holds exactly before rounding, but the stored values are rounded
images (the counterexample shows they can disagree with
`(stored mean + 180) mod 360`); on the 1x-peak fallback path the stored rounded
values satisfy the invariant exactly. -/
theorem C6_counterweight (es : List PhaseEstimate) (xfft zfft : ℕ → ℂ)
    (hne : es.isEmpty = false) (hgood : (goodEstimates es).isEmpty = false) :
    (∃ m : ℝ, 0 ≤ m ∧ m < 360 ∧
      (computePhaseSummary es).mean_phase_deg = some (pyRound 1 m) ∧
      (computePhaseSummary es).counterweight_deg = some (pyRound 1 (fmodR (m + 180) 360))) ∧
    (balancing1x 72 xfft zfft).counterweight_position_deg
      = fmodR ((balancing1x 72 xfft zfft).peak_imbalance_deg + 180) 360 := by
  constructor
  · unfold computePhaseSummary
    simp only [hne, hgood, Bool.false_eq_true, if_false]
    exact ⟨_, fmodR_nonneg _ (by norm_num), fmodR_lt _ (by norm_num), rfl, rfl⟩
  · unfold balancing1x
    have hidx : argmaxIdx 72 (fun j =>
        Real.sqrt ((irfftSig (maskToBin xfft 1) 72 j) ^ 2
          + (irfftSig (maskToBin zfft 1) 72 j) ^ 2)) < 72 :=
      argmaxIdx_lt 72 _ (by norm_num)
    set i := argmaxIdx 72 (fun j =>
        Real.sqrt ((irfftSig (maskToBin xfft 1) 72 j) ^ 2
          + (irfftSig (maskToBin zfft 1) 72 j) ^ 2)) with hi
    simp only []
    have hp : (i : ℝ) * (360 / (72 : ℕ)) = ((5 * i : ℕ) : ℝ) := by
      push_cast
      ring
    rw [hp]
    have hpy : pyRound 0 ((5 * i : ℕ) : ℝ) = ((5 * i : ℕ) : ℝ) := by
      have := pyRound_intCast 0 ((5 * i : ℕ) : ℤ)
      push_cast at this
      push_cast
      exact this
    rw [hpy]
    by_cases hcase : (5 * i : ℕ) < 180
    · have hmod : fmodR (((5 * i : ℕ) : ℝ) + 180) 360 = ((5 * i : ℕ) : ℝ) + 180 := by
        refine fmodR_eq_self (by norm_num) (by positivity) ?_
        have : ((5 * i : ℕ) : ℝ) < 180 := by exact_mod_cast hcase
        linarith
      rw [hmod]
      have : pyRound 0 (((5 * i : ℕ) : ℝ) + 180) = ((5 * i : ℕ) : ℝ) + 180 := by
        have h2 := pyRound_intCast 0 ((5 * i + 180 : ℕ) : ℤ)
        push_cast at h2
        push_cast
        exact h2
      rw [this]
    · have hle : (180 : ℝ) ≤ ((5 * i : ℕ) : ℝ) := by
        have : (180 : ℕ) ≤ 5 * i := Nat.le_of_not_lt hcase
        exact_mod_cast this
      have hlt : ((5 * i : ℕ) : ℝ) < 360 := by
        have : (5 * i : ℕ) < 360 := by omega
        exact_mod_cast this
      have hmod : fmodR (((5 * i : ℕ) : ℝ) + 180) 360 = ((5 * i : ℕ) : ℝ) + 180 - 360 := by
        refine fmodR_in_second (by norm_num) (by linarith) (by linarith)
      rw [hmod]
      have : pyRound 0 (((5 * i : ℕ) : ℝ) + 180 - 360) = ((5 * i : ℕ) : ℝ) + 180 - 360 := by
        have h2 := pyRound_intCast 0 ((5 * i : ℤ) + 180 - 360)
        push_cast at h2
        push_cast
        linarith [h2]
      rw [this]

/-- C6 witness: the amended theorem at the concrete estimate list holding the
single estimate with phase 179.96 and confidence 0.9, and the all-zero spectra. -/
theorem C6_witness :
    (∃ m : ℝ, 0 ≤ m ∧ m < 360 ∧
      (computePhaseSummary [⟨179.96, 0.9⟩]).mean_phase_deg = some (pyRound 1 m) ∧
      (computePhaseSummary [⟨179.96, 0.9⟩]).counterweight_deg
        = some (pyRound 1 (fmodR (m + 180) 360))) ∧
    (balancing1x 72 (fun _ => 0) (fun _ => 0)).counterweight_position_deg
      = fmodR ((balancing1x 72 (fun _ => 0) (fun _ => 0)).peak_imbalance_deg + 180) 360 :=
  C6_counterweight [⟨179.96, 0.9⟩] (fun _ => 0) (fun _ => 0) (by simp)
    (by rw [goodEstimates_17996]; simp)

/-! ### C9 — harmonic isolation round trip -/

lemma unitExp_conj (d : ℤ) (j n : ℕ) :
    (starRingEnd ℂ) (unitExp d j n) = unitExp (-d) j n := by
  unfold unitExp
  rw [← Complex.exp_conj]
  congr 1
  rw [map_div₀]
  simp only [map_mul, Complex.conj_I, Complex.conj_ofReal, map_intCast, map_natCast,
    map_ofNat]
  push_cast
  ring

lemma unitExp_cast_n (j n : ℕ) (hn : 0 < n) : unitExp (n : ℤ) j n = 1 := by
  unfold unitExp
  have hn0 : (n : ℂ) ≠ 0 := Nat.cast_ne_zero.mpr hn.ne'
  have harg : 2 * (Real.pi : ℂ) * Complex.I * (((n : ℤ) : ℂ)) * (j : ℂ) / (n : ℂ)
      = ((j : ℤ) : ℂ) * (2 * (Real.pi : ℂ) * Complex.I) := by
    push_cast
    field_simp
    ring
  rw [harg]
  exact Complex.exp_int_mul_two_pi_mul_I (j : ℤ)

/-- The Hermitian extension of a spectrum that is zero except at bin `k`
(with `0 < k` strictly below the Nyquist bin): value `S` at `k`, `conj S` at
`n - k`, zero elsewhere. -/
lemma hermitianExt_masked (n k : ℕ) (S : ℂ) (hk : 0 < k) (hkn : 2 * k < n)
    (m : ℕ) (_hmn : m < n) :
    hermitianExt (fun idx => if idx = k then S else 0) n m
      = if m = k then S else if m = n - k then (starRingEnd ℂ) S else 0 := by
  have hkn2 : k ≤ n / 2 := by omega
  have hnk2 : n / 2 < n - k := by omega
  unfold hermitianExt
  by_cases hm2 : m ≤ n / 2
  · rw [if_pos hm2]
    show (if m = k then S else 0) = _
    by_cases hmk : m = k
    · rw [if_pos hmk, if_pos hmk]
    · rw [if_neg hmk, if_neg hmk, if_neg (by omega)]
  · rw [if_neg hm2]
    show (starRingEnd ℂ) (if n - m = k then S else 0) = _
    have hmk : ¬(m = k) := by omega
    rw [if_neg hmk]
    by_cases hmnk : m = n - k
    · have h1 : n - m = k := by omega
      rw [if_pos h1, if_pos hmnk]
    · have h1 : ¬(n - m = k) := by omega
      rw [if_neg h1, if_neg hmnk]
      exact map_zero _

/-- The angle-domain signal reconstructed from the bin-`k`-isolated spectrum:
`(S * e^{2 pi i k j / n} + conj S * e^{-2 pi i k j / n}) / n`, a real number
viewed in `ℂ`. -/
lemma irfftSig_masked (n k : ℕ) (S : ℂ) (hn : 0 < n) (hk : 0 < k) (hkn : 2 * k < n)
    (j : ℕ) :
    ((irfftSig (fun idx => if idx = k then S else 0) n j : ℝ) : ℂ)
      = (S * unitExp (k : ℤ) j n + (starRingEnd ℂ) S * unitExp (-(k : ℤ)) j n) / (n : ℂ) := by
  have hkltn : k < n := by omega
  have hnkltn : n - k < n := by omega
  have hsum : (∑ m ∈ Finset.range n,
      hermitianExt (fun idx => if idx = k then S else 0) n m
        * Complex.exp (2 * (Real.pi : ℂ) * Complex.I * (m : ℂ) * (j : ℂ) / (n : ℂ)))
      = S * unitExp (k : ℤ) j n + (starRingEnd ℂ) S * unitExp (-(k : ℤ)) j n := by
    have hterm : ∀ m ∈ Finset.range n,
        hermitianExt (fun idx => if idx = k then S else 0) n m
            * Complex.exp (2 * (Real.pi : ℂ) * Complex.I * (m : ℂ) * (j : ℂ) / (n : ℂ))
          = (if m = k then S * unitExp (k : ℤ) j n else 0)
            + (if m = n - k then (starRingEnd ℂ) S * unitExp ((n - k : ℕ) : ℤ) j n else 0) := by
      intro m hm
      rw [hermitianExt_masked n k S hk hkn m (List.mem_range.mp (by simpa using hm))]
      have hexp : Complex.exp (2 * (Real.pi : ℂ) * Complex.I * (m : ℂ) * (j : ℂ) / (n : ℂ))
          = unitExp (m : ℤ) j n := by
        unfold unitExp
        norm_cast
      rw [hexp]
      by_cases hmk : m = k
      · rw [if_pos hmk, if_pos hmk, if_neg (by omega), hmk]
        ring
      · rw [if_neg hmk, if_neg hmk]
        by_cases hmnk : m = n - k
        · rw [if_pos hmnk, if_pos hmnk, hmnk]
          ring
        · rw [if_neg hmnk, if_neg hmnk]
          ring
    rw [Finset.sum_congr rfl hterm, Finset.sum_add_distrib]
    rw [Finset.sum_ite_eq' (Finset.range n) k fun _ => S * unitExp (k : ℤ) j n]
    rw [Finset.sum_ite_eq' (Finset.range n) (n - k)
        fun _ => (starRingEnd ℂ) S * unitExp ((n - k : ℕ) : ℤ) j n]
    rw [if_pos (Finset.mem_range.mpr hkltn), if_pos (Finset.mem_range.mpr hnkltn)]
    have hnk : ((n - k : ℕ) : ℤ) = -(k : ℤ) + (n : ℤ) := by omega
    rw [hnk, ← unitExp_mul, unitExp_cast_n j n hn, mul_one]
  unfold irfftSig
  rw [hsum]
  refine Complex.conj_eq_iff_re.mp ?_
  rw [map_div₀, map_add, map_mul, map_mul, unitExp_conj, unitExp_conj]
  simp only [Complex.conj_conj, map_natCast, neg_neg]
  ring

/-- C9: applying the forward real DFT, zeroing every bin except order `k`,
inverting to the angle domain and re-applying the forward transform yields a
spectrum that is exactly the original bin `k` at order `k` and exactly zero at
every other rfft bin `m ≤ n / 2`. -/
theorem C9_harmonic_isolation (n k m : ℕ) (v : ℕ → ℝ)
    (hn : 0 < n) (hk : 0 < k) (hkn : 2 * k < n) (hm : 2 * m ≤ n) :
    rfftBin n (fun j => irfftSig (maskToBin (rfftBin n v) k) n j) m
      = if m = k then rfftBin n v k else 0 := by
  have hn0 : (n : ℂ) ≠ 0 := Nat.cast_ne_zero.mpr hn.ne'
  set S := rfftBin n v k with hS
  have hmask : maskToBin (rfftBin n v) k = fun idx => if idx = k then S else 0 := by
    funext idx
    unfold maskToBin
    by_cases h : idx = k
    · rw [if_pos h, if_pos h, h]
    · rw [if_neg h, if_neg h]
  rw [hmask]
  unfold rfftBin
  have hterm : ∀ j ∈ Finset.range n,
      ((irfftSig (fun idx => if idx = k then S else 0) n j : ℝ) : ℂ)
          * Complex.exp (-(2 * (Real.pi : ℂ) * Complex.I) * (j : ℂ) * (m : ℂ) / (n : ℂ))
        = (S * unitExp ((k : ℤ) - (m : ℤ)) j n
            + (starRingEnd ℂ) S * unitExp (-(k : ℤ) - (m : ℤ)) j n) / (n : ℂ) := by
    intro j _
    rw [irfftSig_masked n k S hn hk hkn j]
    have hexp : Complex.exp (-(2 * (Real.pi : ℂ) * Complex.I) * (j : ℂ) * (m : ℂ) / (n : ℂ))
        = unitExp (-(m : ℤ)) j n := by
      unfold unitExp
      congr 1
      push_cast
      ring
    rw [hexp]
    rw [div_mul_eq_mul_div, add_mul, mul_assoc, mul_assoc, unitExp_mul, unitExp_mul]
    rw [show (k : ℤ) + -(m : ℤ) = (k : ℤ) - (m : ℤ) by ring]
    rw [show -(k : ℤ) + -(m : ℤ) = -(k : ℤ) - (m : ℤ) by ring]
  rw [Finset.sum_congr rfl hterm, ← Finset.sum_div, Finset.sum_add_distrib]
  rw [← Finset.mul_sum, ← Finset.mul_sum]
  rw [sumExpUnit n hn ((k : ℤ) - (m : ℤ)), sumExpUnit n hn (-(k : ℤ) - (m : ℤ))]
  have hmn : m < n := by omega
  have hsecond : ¬((n : ℤ) ∣ (-(k : ℤ) - (m : ℤ))) := by
    intro hdvd
    have habs : |(-(k : ℤ) - (m : ℤ))| < (n : ℤ) := by
      rw [abs_lt]
      omega
    have := Int.eq_zero_of_dvd_of_natAbs_lt_natAbs hdvd (by omega)
    omega
  rw [if_neg hsecond, mul_zero, add_zero]
  by_cases hmk : m = k
  · rw [if_pos hmk]
    have hdvd : (n : ℤ) ∣ ((k : ℤ) - (m : ℤ)) := by
      rw [hmk]
      simp
    rw [if_pos hdvd]
    field_simp
  · rw [if_neg hmk]
    have hnd : ¬((n : ℤ) ∣ ((k : ℤ) - (m : ℤ))) := by
      intro hdvd
      have := Int.eq_zero_of_dvd_of_natAbs_lt_natAbs hdvd (by omega)
      omega
    rw [if_neg hnd, mul_zero, zero_div]

/-- C9 witness: for the 72-bin impulse input, masking to order 1, inverting and
re-applying the forward transform leaves bin 0 exactly zero. -/
theorem C9_witness :
    rfftBin 72 (fun j => irfftSig (maskToBin (rfftBin 72 impulseBins) 1) 72 j) 0 = 0 := by
  have h := C9_harmonic_isolation 72 1 0 impulseBins (by norm_num) (by norm_num)
    (by norm_num) (by norm_num)
  simpa using h

end POV
